import Mathlib

/-!
# Verification of the SRIG Layout plugin (srig_layout_v1.py)

A shallow embedding of the plugin's core logic:

* table loading (`restoreCSV`) and the JSON→CSV converter (`convertJSONtoCSV`),
* the grid-placement loops (`funnelFromCSV`, `funnelFromJson`, `create_via`),
* footprint re-spacing (`distributeX`, `distributeY`, `distributeXY`),
* the natural alphanumeric sort (`natural_sort`).

Modelling conventions:

* Python floats are modelled as exact rationals (`ℚ`); all positions are
  carried in the unit the code computes with (mm for the funnel functions,
  host internal units (IU, nanometres) for the footprint functions, with
  `ToMils`/`wxPointMils` modelled as exact division/multiplication by 25400,
  the number of nanometres in a mil).  Host rounding to integer nanometres
  is not modelled; the claims under study are stated in mm/mils arithmetic.
* Python `dict` is an insertion-ordered association list; assigning to an
  existing key replaces the value in place, a fresh key is appended.
* A raised Python exception is modelled with `Option` (`none` = the
  operation raised); `funnelFromCSV` returns the board unchanged together
  with an error flag when loading raises, since in the source the exception
  propagates out of `restoreCSV` before any `board.Add` call.
* Python `sorted` is a stable sort on a total preorder; it is modelled with
  `List.insertionSort` (also stable), so results agree.
-/

namespace SrigLayout

/-! ## Decimal digits: printing and parsing

`valOfDigits` is the value of a big-endian digit-character list, exactly the
accumulation Python's `int`/`float` perform on the digit part of a literal.
`natChars` prints a natural in base 10 (big-endian), as Python `str` does.
-/

def digitChar (d : ℕ) : Char := Char.ofNat (48 + d)

def valOfDigits (l : List Char) : ℕ :=
  l.foldl (fun a c => 10 * a + (c.toNat - 48)) 0

/-- Big-endian base-10 digits of `n`, using `fuel` as a structural bound
(`fuel ≥ n` suffices).  Returns `[]` for `n = 0`. -/
def toDigitsBE : ℕ → ℕ → List Char
  | 0, _ => []
  | fuel + 1, n =>
    if n = 0 then [] else toDigitsBE fuel (n / 10) ++ [digitChar (n % 10)]

/-- The decimal digit string of a natural number, as Python `str` prints it. -/
def natChars (n : ℕ) : List Char :=
  if n = 0 then [Char.ofNat 48] else toDigitsBE n n

def natStr (n : ℕ) : String := ⟨natChars n⟩

/-- `str` of a Python `int`. -/
def intStr (i : ℤ) : String :=
  if i < 0 then ⟨Char.ofNat 45 :: natChars i.natAbs⟩ else ⟨natChars i.natAbs⟩

/-- All-digit check used by the parsers. -/
def allDigits (l : List Char) : Bool := l.all Char.isDigit

/-- Python `int(s)` on a decimal literal: optional sign then digits.
(`int` also strips whitespace and accepts underscores; those inputs do not
occur in this program's data and are treated as parse failures.) -/
def parsePyInt (s : String) : Option ℤ :=
  let cs := s.data
  let neg := cs.head? = some (Char.ofNat 45)
  let cs' := if cs.head? = some (Char.ofNat 45) ∨ cs.head? = some (Char.ofNat 43)
             then cs.tail else cs
  if cs' ≠ [] ∧ allDigits cs' then
    some (if neg then -(valOfDigits cs' : ℤ) else (valOfDigits cs' : ℤ))
  else none

/-- `int(s)` with the (unreachable in this program) failure defaulted,
mirroring contexts where the source calls `int` on keys it created itself. -/
def pyIntD (s : String) : ℤ := (parsePyInt s).getD 0

/-- Split a character list at the first dot, if any. -/
def splitDot : List Char → List Char × Option (List Char)
  | [] => ([], none)
  | c :: cs =>
    if c = Char.ofNat 46 then ([], some cs)
    else
      let p := splitDot cs
      (c :: p.1, p.2)

/-- Lexing phase of Python `float` on a character list:
`[sign] digits [. digits]` (at least one digit).  Returns the sign, the
integer-part value, the fraction-part value and the fraction length.
Exponent forms, `inf`/`nan` and whitespace are not produced by this
program's serializers and are treated as parse failures. -/
def parsePyFloatParts (cs : List Char) : Option (Bool × ℕ × ℕ × ℕ) :=
  let neg : Bool := cs.head? = some (Char.ofNat 45)
  let cs' := if cs.head? = some (Char.ofNat 45) ∨ cs.head? = some (Char.ofNat 43)
             then cs.tail else cs
  match splitDot cs' with
  | (ip, none) =>
    if ip ≠ [] ∧ allDigits ip then some (neg, valOfDigits ip, 0, 0) else none
  | (ip, some fp) =>
    if (ip ≠ [] ∨ fp ≠ []) ∧ allDigits ip ∧ allDigits fp then
      some (neg, valOfDigits ip, valOfDigits fp, fp.length)
    else none

/-- Python `float` on a character list: the value of the lexed literal. -/
def parsePyFloatChars (cs : List Char) : Option ℚ :=
  (parsePyFloatParts cs).map (fun t =>
    (if t.1 then (-1 : ℚ) else 1) * ((t.2.1 : ℚ) + (t.2.2.1 : ℚ) / 10 ^ t.2.2.2))

/-- Python `float(s)` on a plain decimal literal. -/
def parsePyFloat (s : String) : Option ℚ :=
  parsePyFloatChars s.data

/-- A rational with a finite decimal expansion (every finite Python float is
one: `m·2^(-e) = m·5^e/10^e`). -/
def IsDec (q : ℚ) : Prop := ∃ k ≤ q.den, (q.den : ℕ) ∣ 10 ^ k

/-- Smallest exponent `k` with `q.den ∣ 10^k`, searched up to `q.den`
(defaulted to `0` when `q` has no finite decimal expansion). -/
def decExp (q : ℚ) : ℕ :=
  (((List.range (q.den + 1)).find? (fun k => decide ((q.den : ℕ) ∣ 10 ^ k))).getD 0)

def padZeros (k : ℕ) (l : List Char) : List Char :=
  List.replicate (k - l.length) (Char.ofNat 48) ++ l

/-- Decimal serialization of a rational, modelling what `csv.DictWriter`
writes for a float field (Python prints the shortest decimal string that
reparses to the same float; we print the exact decimal expansion, which the
loader parses back to the same rational). -/
def showDecChars (q : ℚ) : List Char :=
  let k := decExp q
  let N := q.num.natAbs * 10 ^ k / q.den
  let ip := natChars (N / 10 ^ k)
  let fp := if k = 0 then [Char.ofNat 48] else padZeros k (toDigitsBE (N % 10 ^ k) (N % 10 ^ k))
  (if q.num < 0 then [Char.ofNat 45] else []) ++ ip ++ Char.ofNat 46 :: fp

def showDec (q : ℚ) : String := ⟨showDecChars q⟩

/-! ## Data model -/

/-- One via record: `{X, Y, ID, OD}`, all floats (mm). -/
structure ViaRec where
  X : ℚ
  Y : ℚ
  ID : ℚ
  OD : ℚ
deriving DecidableEq

/-- A Python dict keyed by strings: insertion-ordered association list. -/
abbrev Dict := List (String × ViaRec)

/-- Python dict assignment `d[k] = v`: replaces in place if the key exists,
otherwise appends. -/
def dictInsert (d : Dict) (k : String) (v : ViaRec) : Dict :=
  match d with
  | [] => [(k, v)]
  | p :: rest => if p.1 = k then (k, v) :: rest else p :: dictInsert rest k v

/-- Python dict read `d[k]` (as an `Option`). -/
def dictLookup (d : Dict) (k : String) : Option ViaRec :=
  (d.find? (fun p => p.1 == k)).map Prod.snd

/-- A CSV file: the header row and the data rows, as cell strings. -/
structure CSV where
  header : List String
  rows : List (List String)
deriving DecidableEq

def colIndex : String := "index"
def colX : String := "X"
def colY : String := "Y"
def colID : String := "ID"
def colOD : String := "OD"

/-- `csv.DictReader` cell access `row[name]`: `none` when the column is
absent from the header (Python `KeyError`) or the row is too short to have
the cell (Python leaves `None`, and `float(None)`/`int(None)` then raise). -/
def getCell (header row : List String) (name : String) : Option String :=
  (header.indexOf? name).bind (fun i => row.get? i)

/-- Parse one CSV data row as `restoreCSV` does:
`int(row["index"])`, `float(row["X"])`, `float(row["Y"])`,
`float(row["ID"])`, `float(row["OD"])`; `none` models the raised error. -/
def parseViaRow (header row : List String) : Option (ℤ × ViaRec) :=
  (getCell header row colIndex).bind fun sIdx =>
  (parsePyInt sIdx).bind fun n =>
  (getCell header row colX).bind fun sX =>
  (parsePyFloat sX).bind fun x =>
  (getCell header row colY).bind fun sY =>
  (parsePyFloat sY).bind fun y =>
  (getCell header row colID).bind fun sID =>
  (parsePyFloat sID).bind fun idv =>
  (getCell header row colOD).bind fun sOD =>
  (parsePyFloat sOD).map fun odv =>
  (n, ViaRec.mk x y idv odv)

/-- The row loop of `restoreCSV`: `viaDict[str(int(row["index"]))] = {...}`,
aborting (`none`) at the first row that raises. -/
def restoreCSVRows (header : List String) : List (List String) → Dict → Option Dict
  | [], d => some d
  | row :: rest, d =>
    match parseViaRow header row with
    | none => none
    | some p => restoreCSVRows header rest (dictInsert d (intStr p.1) p.2)

/-- `restoreCSV`: read a CSV with columns `index, X, Y, ID, OD` into a dict
keyed by the stringified integer index. -/
def restoreCSV (csv : CSV) : Option Dict :=
  restoreCSVRows csv.header csv.rows []

/-- Enumerate a list with indices starting at `i`. -/
def enumFrom (i : ℕ) : List α → List (ℕ × α)
  | [] => []
  | a :: rest => (i, a) :: enumFrom (i + 1) rest

/-! ## Natural alphanumeric sort (`natural_sort`)

`re.split` with the capturing group `([0-9]+)` turns a string into an
alternating sequence of non-digit runs (possibly empty, at even positions)
and digit runs (at odd positions).  `convert` maps a digit run to its
integer value and any other run to its lowercased text, and lists of those
atoms are compared lexicographically (Python list comparison).  Comparing an
integer atom with a string atom would raise `TypeError` in Python; it never
happens between two split results because the runs alternate by parity, and
the embedding fixes the arbitrary convention «number before string» there. -/

inductive PyAtom where
  | num (v : ℕ)
  | str (v : List Char)
deriving DecidableEq

/-- `re.split('([0-9]+)', key)` on a character list. -/
def splitRuns : List Char → List (List Char)
  | [] => [[]]
  | c :: cs =>
    match splitRuns cs with
    | [] => [[]]
    | t :: rest =>
      if c.isDigit then
        match t, rest with
        | [], d :: rest' => [] :: (c :: d) :: rest'
        | _, _ => [] :: [c] :: t :: rest
      else (c :: t) :: rest

/-- `convert = lambda text: int(text) if text.isdigit() else text.lower()`.
Python `str.isdigit` is false on the empty string. -/
def convert (run : List Char) : PyAtom :=
  if run ≠ [] ∧ allDigits run then .num (valOfDigits run)
  else .str (run.map Char.toLower)

/-- `alphanum_key = lambda key: [convert(c) for c in re.split('([0-9]+)', key)]` -/
def alphanumKey (s : String) : List PyAtom :=
  (splitRuns s.data).map convert

/-- Python string `<`: lexicographic comparison by code point. -/
def charListLt : List Char → List Char → Bool
  | [], [] => false
  | [], _ :: _ => true
  | _ :: _, [] => false
  | a :: as_, b :: bs =>
    if a < b then true else if b < a then false else charListLt as_ bs

/-- Strict comparison of atoms (Python `<` where both operands have the same
type; the cross-type cases are the fixed unreachable convention). -/
def atomLt : PyAtom → PyAtom → Bool
  | .num i, .num j => i < j
  | .str a, .str b => charListLt a b
  | .num _, .str _ => true
  | .str _, .num _ => false

/-- Python list comparison: first non-equal entry decides. -/
def listLe : List PyAtom → List PyAtom → Bool
  | [], _ => true
  | _ :: _, [] => false
  | a :: as_, b :: bs =>
    if atomLt a b then true
    else if atomLt b a then false
    else listLe as_ bs

def natRel (a b : String) : Prop := listLe (alphanumKey a) (alphanumKey b) = true

instance : DecidableRel natRel := fun a b => by unfold natRel; infer_instance

/-- `natural_sort`: Python `sorted(l, key=alphanum_key)` (a stable sort). -/
def natural_sort (l : List String) : List String :=
  l.insertionSort natRel

/-! ## Board model

The board is the list of elements added to (or present in) the document, in
`Add` order.  A circle keeps the source's representation: centre position
plus the `SetEndX` value, so its radius is `endX - x`. -/

inductive Layer where
  | FMask
  | BMask
  | FSilkS
deriving DecidableEq

inductive PCBItem where
  | via (x y drill width : ℚ)
  | circle (layer : Layer) (x y endX : ℚ) (filled : Bool)
  | text (s : String) (x y size thickness : ℚ) (layer : Layer)
deriving DecidableEq

/-- `create_via(board, net, xPos, yPos, drillSize, drillWidth, addMaskBool)`:
adds the via, then the back-mask filled circle, then the front-mask one.
The `net` argument is accepted and ignored, as in the source.  Positions and
sizes are carried in mm (the host's `mmToIU` scaling is an opaque unit
conversion applied on every stored coordinate alike). -/
def create_via (board : List PCBItem) (_net : String) (xPos yPos drillSize drillWidth : ℚ)
    (addMaskBool : Bool) : List PCBItem :=
  let board := board ++ [.via xPos yPos drillSize drillWidth]
  if addMaskBool then
    board ++ [.circle .BMask xPos yPos (xPos + drillWidth / 2) true,
              .circle .FMask xPos yPos (xPos + drillWidth / 2) true]
  else board

/-- `wxPointMM(0, 0)`, the origin both funnel functions add in. -/
def originMM : ℚ × ℚ := (0, 0)

def netDefault : String := "1"

/-- The shared placement loop of `funnelFromCSV` / `funnelFromJson`:
`i` is the enumeration index, `m` the column counter, `yMod` the accumulated
row offset.  At the top of each iteration, when `i > 0` and `i % numCols == 0`,
the row offset grows by `yStep` and the column counter resets. -/
def placeLoop (xStep yStep : ℚ) (numCols : ℕ) :
    List (String × ViaRec) → ℕ → ℕ → ℚ → List PCBItem → List PCBItem
  | [], _, _, _, board => board
  | (k, r) :: rest, i, m, yMod, board =>
    let st := if 0 < i ∧ i % numCols = 0 then ((0 : ℕ), yMod + yStep) else (m, yMod)
    let curX := r.X + originMM.1 + xStep * (st.1 : ℚ)
    let curY := r.Y + originMM.2 + st.2
    let board := board ++
      [.text (intStr (pyIntD k + 1)) curX (curY + r.OD / 2 + 4) 4 (1 / 2) Layer.FSilkS]
    let board := create_via board netDefault curX curY r.ID r.OD true
    placeLoop xStep yStep numCols rest (i + 1) (st.1 + 1) st.2 board

def keyIntLe (p q : String × ViaRec) : Prop := pyIntD p.1 ≤ pyIntD q.1

instance : DecidableRel keyIntLe := fun p q => by unfold keyIntLe; infer_instance

/-- `sorted(list(viaDict.keys()), key=lambda s: int(s))`, carried out on the
key/value pairs (the dict's keys are unique, so sorting the pairs by key and
looking each key up again is the same list). -/
def sortPairs (d : Dict) : List (String × ViaRec) :=
  List.insertionSort keyIntLe d

/-- `funnelFromCSV`: load the CSV, then place every record on the grid in
ascending numeric key order.  Returns the final board and an error flag;
on a load error the exception propagates before any `board.Add`, so the
board comes back unchanged (flag `true`). -/
def funnelFromCSV (csv : CSV) (xStep yStep : ℚ) (numCols : ℕ) (board : List PCBItem) :
    List PCBItem × Bool :=
  match restoreCSV csv with
  | none => (board, true)
  | some d => (placeLoop xStep yStep numCols (sortPairs d) 0 0 0 board, false)

/-- `funnelFromJson`: same loop, but `keyList = list(viaDict.keys())` is the
dict's insertion order — no sorting. -/
def funnelFromJson (jd : Dict) (xStep yStep : ℚ) (numCols : ℕ) (board : List PCBItem) :
    List PCBItem :=
  placeLoop xStep yStep numCols jd 0 0 0 board

/-- `convertJSONtoCSV` (the file-dialog steps elided): emit the header
`index,X,Y,ID,OD` and one row per record, sorted by numeric key, with the
index written as `int(k)` and the floats serialized in decimal; `none` when
some key does not parse as an integer (`int(k)` raises while sorting). -/
def convertJSONtoCSV (jd : Dict) : Option CSV :=
  if jd.all (fun p => (parsePyInt p.1).isSome) then
    some ⟨[colIndex, colX, colY, colID, colOD],
      (sortPairs jd).map (fun p =>
        [intStr (pyIntD p.1), showDec p.2.X, showDec p.2.Y, showDec p.2.ID, showDec p.2.OD])⟩
  else none

/-! ## Footprint re-spacing

Footprint positions are host internal units (IU, nanometres).
`pcbnew.ToMils` divides by 25400 (nanometres per mil) and `wxPointMils`
multiplies back; both exact here (the host also rounds to integer IU,
which none of the claims depend on). -/

structure FP where
  ref : String
  x : ℚ
  y : ℚ
  selected : Bool
deriving DecidableEq

def toMils (q : ℚ) : ℚ := q / 25400

def fromMils (q : ℚ) : ℚ := q * 25400

/-- The loop of `distributeX`: for each selected footprint (in host
iteration order), `curX = ToMils(x) + xStep*m; m += 1; curY = ToMils(y)`,
then the position is set to `wxPointMils(curX, curY)`. -/
def dXAux (xStep : ℚ) : List FP → ℕ → List FP
  | [], _ => []
  | fp :: rest, m =>
    if fp.selected then
      { fp with x := fromMils (toMils fp.x + xStep * (m : ℚ)),
                y := fromMils (toMils fp.y) } :: dXAux xStep rest (m + 1)
    else fp :: dXAux xStep rest m

def distributeX (board : List FP) (xStep : ℚ) : List FP :=
  dXAux xStep board 0

/-- The loop of `distributeY`, exactly as written in the source:
`curX` is read in IU and never converted to mils, and `curY` is converted
to mils a second time after the step is added
(`curY = ToMils(curY); curY += yStep*m; m += 1; curY = ToMils(curY)`)
before `wxPointMils` scales both back up. -/
def dYAux (yStep : ℚ) : List FP → ℕ → List FP
  | [], _ => []
  | fp :: rest, m =>
    if fp.selected then
      { fp with x := fromMils fp.x,
                y := fromMils (toMils (toMils fp.y + yStep * (m : ℚ))) } :: dYAux yStep rest (m + 1)
    else fp :: dYAux yStep rest m

def distributeY (board : List FP) (yStep : ℚ) : List FP :=
  dYAux yStep board 0

/-- Python tuple comparison used by `sorted(zip(fpNames, fpList))`:
lexicographic code-point comparison of the names (`a ≤ b` iff `¬ b < a`);
the footprint objects themselves only get compared when two names tie
(unreachable for distinct reference labels), so the model compares names
only, keeping ties stable. -/
def fstStrLe {α : Type} (p q : String × α) : Prop :=
  charListLt q.1.data p.1.data = false

instance {α : Type} : DecidableRel (α := String × α) fstStrLe := fun p q => by
  unfold fstStrLe; infer_instance

/-- The footprint processing order of `distributeXY`, as list positions into
the board:  `fpNames = natural_sort([fp.GetReference() ...])` overwrites the
name list with its sorted copy, and `sorted(zip(fpNames, fpList))` then zips
those sorted names positionally onto the *unsorted* footprint list and sorts
the pairs lexicographically by name. -/
def xyOrder (names : List String) : List ℕ :=
  (List.insertionSort fstStrLe ((natural_sort names).zip (List.range names.length))).map
    Prod.snd

/-- The loop body of `distributeXY` over the reordered footprints: the grid
arithmetic of the funnel loop, but with the column-wrap check executed at
the *end* of an iteration (and only for selected footprints), after the
element at enumeration index `i` has already been placed. -/
def dXYAux (xStep yStep : ℚ) (numCols : ℕ) (board : List FP) :
    List ℕ → ℕ → ℕ → ℚ → List (ℕ × (ℚ × ℚ)) → List (ℕ × (ℚ × ℚ))
  | [], _, _, _, acc => acc
  | j :: rest, i, m, yMod, acc =>
    match board.get? j with
    | none => dXYAux xStep yStep numCols board rest (i + 1) m yMod acc
    | some fp =>
      if fp.selected then
        let curX := toMils fp.x + xStep * (m : ℚ)
        let curY := toMils fp.y + yMod
        let acc' := acc ++ [(j, (fromMils curX, fromMils curY))]
        let st := if 0 < i ∧ i % numCols = 0 then ((0 : ℕ), yMod + yStep)
                  else (m + 1, yMod)
        dXYAux xStep yStep numCols board rest (i + 1) st.1 st.2 acc'
      else dXYAux xStep yStep numCols board rest (i + 1) m yMod acc

/-- Apply the recorded `SetPosition` calls to the board (each update names
the footprint by its position in the board list). -/
def applyUpdates (board : List FP) (upds : List (ℕ × (ℚ × ℚ))) : List FP :=
  (enumFrom 0 board).map (fun jf =>
    match upds.lookup jf.1 with
    | some p => { jf.2 with x := p.1, y := p.2 }
    | none => jf.2)

/-- `distributeXY`: reorder the footprints as `xyOrder` does, then run the
grid loop over them and commit the position updates. -/
def distributeXY (board : List FP) (xStep yStep : ℚ) (numCols : ℕ) : List FP :=
  applyUpdates board
    (dXYAux xStep yStep numCols board (xyOrder (board.map FP.ref)) 0 0 0 [])

/-! ## Specification-side views used by the theorems -/

/-- The required CSV columns. -/
def requiredCols : List String := [colIndex, colX, colY, colID, colOD]

/-- The four document elements the placement loop adds for the record at
0-based position `i` of the processing order: the silkscreen label
`index+1` offset `OD/2 + 4` mm below, then the via (drill `ID`, width `OD`),
then the two filled mask circles of radius `OD/2` (so diameter `OD`), all
at `X + xStep·(i mod numCols)`, `Y + yStep·(i div numCols)`. -/
def recordItems (xStep yStep : ℚ) (numCols : ℕ) (i : ℕ) (kr : String × ViaRec) :
    List PCBItem :=
  let x := kr.2.X + xStep * ((i % numCols : ℕ) : ℚ)
  let y := kr.2.Y + yStep * ((i / numCols : ℕ) : ℚ)
  [.text (intStr (pyIntD kr.1 + 1)) x (y + kr.2.OD / 2 + 4) 4 (1 / 2) Layer.FSilkS,
   .via x y kr.2.ID kr.2.OD,
   .circle .BMask x y (x + kr.2.OD / 2) true,
   .circle .FMask x y (x + kr.2.OD / 2) true]

/-- Positions of the via elements on a board, in order. -/
def viaPositions (board : List PCBItem) : List (ℚ × ℚ) :=
  board.filterMap (fun it => match it with
    | .via x y _ _ => some (x, y)
    | _ => none)

/-- How many of the first `j` footprints are selected (the value of the
loop counter `m` when the `j`-th footprint is visited). -/
def selBefore (board : List FP) (j : ℕ) : ℕ :=
  ((board.take j).filter (fun fp => fp.selected)).length

/-! ## Lemmas: digit strings round-trip -/

theorem digitChar_isDigit {d : ℕ} (h : d < 10) : (digitChar d).isDigit = true := by
  unfold digitChar
  interval_cases d <;> decide

theorem digitChar_toNat {d : ℕ} (h : d < 10) : (digitChar d).toNat - 48 = d := by
  unfold digitChar
  interval_cases d <;> decide

theorem foldl_val_eq (l : List Char) (a : ℕ) :
    l.foldl (fun a c => 10 * a + (c.toNat - 48)) a =
      a * 10 ^ l.length + valOfDigits l := by
  induction l generalizing a with
  | nil => simp [valOfDigits]
  | cons c cs ih =>
    have hval : valOfDigits (c :: cs) =
        cs.foldl (fun a c => 10 * a + (c.toNat - 48)) (10 * 0 + (c.toNat - 48)) := rfl
    rw [List.foldl_cons, ih, hval, ih (10 * 0 + (c.toNat - 48)), List.length_cons,
      pow_succ]
    ring

theorem valOfDigits_append (l₁ l₂ : List Char) :
    valOfDigits (l₁ ++ l₂) =
      valOfDigits l₁ * 10 ^ l₂.length + valOfDigits l₂ := by
  unfold valOfDigits
  rw [List.foldl_append, foldl_val_eq]
  rfl

theorem valOfDigits_toDigitsBE {fuel n : ℕ} (h : n ≤ fuel) :
    valOfDigits (toDigitsBE fuel n) = n := by
  induction fuel generalizing n with
  | zero =>
    have : n = 0 := Nat.le_zero.mp h
    subst this
    rfl
  | succ f ih =>
    by_cases h0 : n = 0
    · subst h0; rfl
    · have hdiv : n / 10 ≤ f := by
        have := Nat.div_lt_self (Nat.pos_of_ne_zero h0) (show 1 < 10 by norm_num)
        omega
      have hlt : n % 10 < 10 := Nat.mod_lt _ (show 0 < 10 by norm_num)
      have hsingle : valOfDigits [digitChar (n % 10)] = n % 10 := by
        show 10 * 0 + ((digitChar (n % 10)).toNat - 48) = n % 10
        rw [digitChar_toNat hlt]
        omega
      simp only [toDigitsBE, h0, if_false, valOfDigits_append, ih hdiv, hsingle,
        List.length_cons, List.length_nil]
      have := Nat.div_add_mod n 10
      omega

theorem allDigits_toDigitsBE (fuel n : ℕ) : allDigits (toDigitsBE fuel n) = true := by
  induction fuel generalizing n with
  | zero => rfl
  | succ f ih =>
    by_cases h0 : n = 0
    · simp [toDigitsBE, h0, allDigits]
    · simp only [toDigitsBE, h0, if_false, allDigits, List.all_append,
        Bool.and_eq_true]
      refine ⟨?_, ?_⟩
      · exact ih (n / 10)
      · simp [digitChar_isDigit (Nat.mod_lt n (show 0 < 10 by norm_num))]

theorem length_toDigitsBE {fuel n k : ℕ} (h : n < 10 ^ k) :
    (toDigitsBE fuel n).length ≤ k := by
  induction fuel generalizing n k with
  | zero => simp [toDigitsBE]
  | succ f ih =>
    by_cases h0 : n = 0
    · simp [toDigitsBE, h0]
    · cases k with
      | zero =>
        simp only [pow_zero] at h
        omega
      | succ k' =>
        have hdiv : n / 10 < 10 ^ k' := by
          rw [Nat.div_lt_iff_lt_mul (show 0 < 10 by norm_num)]
          calc n < 10 ^ (k' + 1) := h
          _ = 10 ^ k' * 10 := by ring
        simp only [toDigitsBE, h0, if_false, List.length_append, List.length_cons,
          List.length_nil]
        have := ih hdiv
        omega

theorem valOfDigits_natChars (n : ℕ) : valOfDigits (natChars n) = n := by
  unfold natChars
  by_cases h0 : n = 0
  · subst h0; rfl
  · simp [h0, valOfDigits_toDigitsBE (le_refl n)]

theorem allDigits_natChars (n : ℕ) : allDigits (natChars n) = true := by
  unfold natChars
  by_cases h0 : n = 0
  · subst h0; rfl
  · simp [h0, allDigits_toDigitsBE]

theorem natChars_ne_nil (n : ℕ) : natChars n ≠ [] := by
  unfold natChars
  by_cases h0 : n = 0
  · simp [h0]
  · have hf : ∃ f, n = f + 1 := ⟨n - 1, by omega⟩
    obtain ⟨f, hf'⟩ := hf
    subst hf'
    simp only [h0, if_false, toDigitsBE, if_neg h0]
    simp

theorem head_isDigit_of_allDigits {c : Char} {cs : List Char}
    (h : allDigits (c :: cs) = true) : c.isDigit = true := by
  unfold allDigits at h
  simp [List.all_cons] at h
  exact h.1

/-- The heads of all-digit strings are digits, hence not a sign character. -/
theorem digit_ne_minus {c : Char} (h : c.isDigit = true) : c ≠ Char.ofNat 45 := by
  intro rfl_eq
  rw [rfl_eq] at h
  exact absurd h (by decide)

theorem digit_ne_plus {c : Char} (h : c.isDigit = true) : c ≠ Char.ofNat 43 := by
  intro rfl_eq
  rw [rfl_eq] at h
  exact absurd h (by decide)

theorem digit_ne_dot {c : Char} (h : c.isDigit = true) : c ≠ Char.ofNat 46 := by
  intro rfl_eq
  rw [rfl_eq] at h
  exact absurd h (by decide)

theorem valOfDigits_replicate_zero (j : ℕ) :
    valOfDigits (List.replicate j (Char.ofNat 48)) = 0 := by
  induction j with
  | zero => rfl
  | succ j ih =>
    have : List.replicate (j + 1) (Char.ofNat 48) =
        List.replicate j (Char.ofNat 48) ++ [Char.ofNat 48] := by
      rw [List.replicate_succ']
    rw [this, valOfDigits_append, ih]
    show 0 * 10 ^ 1 + (10 * 0 + ((Char.ofNat 48).toNat - 48)) = 0
    decide

theorem valOfDigits_padZeros (k : ℕ) (l : List Char) :
    valOfDigits (padZeros k l) = valOfDigits l := by
  unfold padZeros
  rw [valOfDigits_append, valOfDigits_replicate_zero]
  omega

theorem allDigits_padZeros {k : ℕ} {l : List Char} (h : allDigits l = true) :
    allDigits (padZeros k l) = true := by
  unfold padZeros allDigits
  rw [List.all_append]
  unfold allDigits at h
  rw [h]
  simp [List.all_eq_true]

theorem length_padZeros {k : ℕ} {l : List Char} (h : l.length ≤ k) :
    (padZeros k l).length = k := by
  unfold padZeros
  rw [List.length_append, List.length_replicate]
  omega

theorem splitDot_append {l₁ l₂ : List Char} (h : allDigits l₁ = true) :
    splitDot (l₁ ++ Char.ofNat 46 :: l₂) = (l₁, some l₂) := by
  induction l₁ with
  | nil => simp [splitDot]
  | cons c cs ih =>
    have hc : c.isDigit = true := head_isDigit_of_allDigits h
    have hcs : allDigits cs = true := by
      unfold allDigits at h ⊢
      rw [List.all_cons, Bool.and_eq_true] at h
      exact h.2
    simp only [List.cons_append, splitDot, if_neg (digit_ne_dot hc), List.append_eq,
      ih hcs]

theorem decExp_dvd {q : ℚ} (h : IsDec q) : (q.den : ℕ) ∣ 10 ^ decExp q := by
  obtain ⟨k₀, hle, hdvd⟩ := h
  have hmem : k₀ ∈ List.range (q.den + 1) := List.mem_range.mpr (by omega)
  have hsome : (((List.range (q.den + 1)).find?
      (fun k => decide ((q.den : ℕ) ∣ 10 ^ k)))).isSome = true := by
    rw [List.find?_isSome]
    exact ⟨k₀, hmem, by simpa using hdvd⟩
  obtain ⟨k, hk⟩ := Option.isSome_iff_exists.mp hsome
  have hp := List.find?_some hk
  unfold decExp
  rw [hk]
  simpa using hp

theorem parsePyFloatParts_mk (p : Prop) [Decidable p] (ip fp : List Char)
    (hipne : ip ≠ []) (hipd : allDigits ip = true) (hfpd : allDigits fp = true) :
    parsePyFloatParts ((if p then [Char.ofNat 45] else []) ++ ip ++ Char.ofNat 46 :: fp) =
      some (decide p, valOfDigits ip, valOfDigits fp, fp.length) := by
  obtain ⟨c, cs, rfl⟩ := List.exists_cons_of_ne_nil hipne
  have hc : c.isDigit = true := head_isDigit_of_allDigits hipd
  have h45 : ¬ (c = Char.ofNat 45) := digit_ne_minus hc
  have h43 : ¬ (c = Char.ofNat 43) := digit_ne_plus hc
  by_cases hp : p
  · simp only [if_pos hp, List.cons_append, List.nil_append, parsePyFloatParts,
      List.head?_cons, Option.some.injEq, List.tail_cons, eq_self_iff_true,
      if_true, true_or]
    rw [show c :: (cs ++ Char.ofNat 46 :: fp) = (c :: cs) ++ Char.ofNat 46 :: fp from rfl,
      splitDot_append hipd]
    simp [hipd, hfpd, hp]
  · simp only [if_neg hp, List.nil_append, List.cons_append, parsePyFloatParts,
      List.head?_cons, Option.some.injEq, h45, h43, or_self, if_false]
    rw [show c :: (cs ++ Char.ofNat 46 :: fp) = (c :: cs) ++ Char.ofNat 46 :: fp from rfl,
      splitDot_append hipd]
    simp [hipd, hfpd, hp]

theorem parsePyFloatChars_mk (p : Prop) [Decidable p] (ip fp : List Char)
    (hipne : ip ≠ []) (hipd : allDigits ip = true) (hfpd : allDigits fp = true) :
    parsePyFloatChars ((if p then [Char.ofNat 45] else []) ++ ip ++ Char.ofNat 46 :: fp) =
      some ((if p then (-1 : ℚ) else 1) *
        ((valOfDigits ip : ℚ) + (valOfDigits fp : ℚ) / 10 ^ fp.length)) := by
  unfold parsePyFloatChars
  rw [parsePyFloatParts_mk p ip fp hipne hipd hfpd]
  simp [decide_eq_true_eq]

theorem parsePyInt_natStr (n : ℕ) : parsePyInt (natStr n) = some (n : ℤ) := by
  obtain ⟨c, cs, hcons⟩ := List.exists_cons_of_ne_nil (natChars_ne_nil n)
  have hdig : allDigits (natChars n) = true := allDigits_natChars n
  have hc : c.isDigit = true := by
    rw [hcons] at hdig
    exact head_isDigit_of_allDigits hdig
  have hd : (natStr n).data = natChars n := rfl
  have h45 : ¬ (c = Char.ofNat 45) := digit_ne_minus hc
  have h43 : ¬ (c = Char.ofNat 43) := digit_ne_plus hc
  unfold parsePyInt
  simp only [hd, hcons, List.head?_cons, Option.some.injEq, h45, h43, or_self,
    if_false, ne_eq, reduceCtorEq, not_false_iff, true_and, if_true,
    and_true]
  rw [← hcons] at *
  simp [hdig, valOfDigits_natChars]

/-- Reassembling a rational from its printed sign, integer digits and
fraction digits. -/
theorem sgn_div_eq (q : ℚ) (k N : ℕ) (hNden : N * q.den = q.num.natAbs * 10 ^ k) :
    (if q.num < 0 then (-1 : ℚ) else 1) * ((N : ℚ) / 10 ^ k) = q := by
  have hdenQ : (q.den : ℚ) ≠ 0 := by
    exact_mod_cast q.den_nz
  have h10kQ : ((10 : ℚ)) ^ k ≠ 0 := by positivity
  have hNq : (N : ℚ) * (q.den : ℚ) = ((q.num.natAbs : ℕ) : ℚ) * 10 ^ k := by
    exact_mod_cast hNden
  have hdiv : (N : ℚ) / 10 ^ k = ((q.num.natAbs : ℕ) : ℚ) / q.den := by
    rw [div_eq_div_iff h10kQ hdenQ]
    exact hNq
  rw [hdiv]
  by_cases hneg : q.num < 0
  · have habs : ((q.num.natAbs : ℕ) : ℚ) = -(q.num : ℚ) := by
      rw [Int.cast_natAbs, abs_of_neg hneg]
      push_cast
      ring
    rw [if_pos hneg, habs]
    rw [show (-1 : ℚ) * (-(q.num : ℚ) / q.den) = (q.num : ℚ) / q.den by ring]
    exact Rat.num_div_den q
  · have habs : ((q.num.natAbs : ℕ) : ℚ) = (q.num : ℚ) := by
      rw [Int.cast_natAbs, abs_of_nonneg (not_lt.mp hneg)]
    rw [if_neg hneg, habs, one_mul]
    exact Rat.num_div_den q

/-- Parsing the decimal serialization of `q` recovers `q`, for any exponent
`k` covering `q.den`. -/
theorem showDec_parse_core (q : ℚ) (k : ℕ) (hdvd : (q.den : ℕ) ∣ 10 ^ k) :
    parsePyFloatChars ((if q.num < 0 then [Char.ofNat 45] else []) ++
      natChars (q.num.natAbs * 10 ^ k / q.den / 10 ^ k) ++ Char.ofNat 46 ::
      (if k = 0 then [Char.ofNat 48]
       else padZeros k (toDigitsBE (q.num.natAbs * 10 ^ k / q.den % 10 ^ k)
         (q.num.natAbs * 10 ^ k / q.den % 10 ^ k)))) = some q := by
  have h10pos : 0 < 10 ^ k := pow_pos (by norm_num) k
  have hNden : q.num.natAbs * 10 ^ k / q.den * q.den = q.num.natAbs * 10 ^ k :=
    Nat.div_mul_cancel (hdvd.mul_left _)
  have hfpd : allDigits (if k = 0 then [Char.ofNat 48]
      else padZeros k (toDigitsBE (q.num.natAbs * 10 ^ k / q.den % 10 ^ k)
        (q.num.natAbs * 10 ^ k / q.den % 10 ^ k))) = true := by
    split
    · decide
    · exact allDigits_padZeros (allDigits_toDigitsBE _ _)
  rw [parsePyFloatChars_mk (q.num < 0) _ _ (natChars_ne_nil _) (allDigits_natChars _) hfpd]
  rw [valOfDigits_natChars]
  by_cases hk : k = 0
  · subst hk
    have hval : valOfDigits [Char.ofNat 48] = 0 := by decide
    simp only [if_pos rfl, if_true, eq_self_iff_true, hval, List.length_cons,
      List.length_nil, Nat.cast_zero, zero_div, add_zero, pow_zero, Nat.div_one,
      mul_one]
    rw [show ((q.num.natAbs / q.den : ℕ) : ℚ) =
        ((q.num.natAbs / q.den : ℕ) : ℚ) / 10 ^ (0 : ℕ) by norm_num]
    exact congrArg some (sgn_div_eq q 0 _ (by simpa using hNden))
  · simp only [if_neg hk, valOfDigits_padZeros, valOfDigits_toDigitsBE (le_refl _),
      length_padZeros (length_toDigitsBE (Nat.mod_lt _ h10pos))]
    have hdm : 10 ^ k * (q.num.natAbs * 10 ^ k / q.den / 10 ^ k) +
        q.num.natAbs * 10 ^ k / q.den % 10 ^ k = q.num.natAbs * 10 ^ k / q.den :=
      Nat.div_add_mod _ _
    have hdmQ : ((10 : ℚ)) ^ k * ((q.num.natAbs * 10 ^ k / q.den / 10 ^ k : ℕ) : ℚ) +
        ((q.num.natAbs * 10 ^ k / q.den % 10 ^ k : ℕ) : ℚ) =
        ((q.num.natAbs * 10 ^ k / q.den : ℕ) : ℚ) := by
      exact_mod_cast hdm
    have hsplit : ((q.num.natAbs * 10 ^ k / q.den / 10 ^ k : ℕ) : ℚ) +
        ((q.num.natAbs * 10 ^ k / q.den % 10 ^ k : ℕ) : ℚ) / 10 ^ k =
        ((q.num.natAbs * 10 ^ k / q.den : ℕ) : ℚ) / 10 ^ k := by
      have h10 : ((10 : ℚ)) ^ k ≠ 0 := by positivity
      field_simp
      linear_combination hdmQ
    rw [hsplit]
    exact congrArg some (sgn_div_eq q k _ hNden)

/-- Round trip: for a rational with a finite decimal expansion, parsing its
decimal serialization recovers it exactly. -/
theorem parsePyFloat_showDec {q : ℚ} (h : IsDec q) :
    parsePyFloat (showDec q) = some q :=
  showDec_parse_core q (decExp q) (decExp_dvd h)


/-! ## Lemmas: the CSV loader -/

theorem bind_const_none {α β : Type} (o : Option α) :
    (o.bind fun _ => (none : Option β)) = none := by
  cases o <;> rfl

theorem getCell_of_not_mem {header row : List String} {name : String}
    (h : name ∉ header) : getCell header row name = none := by
  unfold getCell
  have : header.indexOf? name = none := by
    unfold List.indexOf?
    rw [List.findIdx?_eq_none_iff]
    intro x hx
    by_contra hc
    rw [Bool.not_eq_false, beq_iff_eq] at hc
    exact h (hc ▸ hx)
  rw [this]
  rfl

/-- A missing required column makes every row fail to parse. -/
theorem parseViaRow_none_of_missing {header row : List String}
    (h : ∃ c ∈ requiredCols, c ∉ header) : parseViaRow header row = none := by
  obtain ⟨c, hc, hmem⟩ := h
  have hcases : c = colIndex ∨ c = colX ∨ c = colY ∨ c = colID ∨ c = colOD := by
    simpa [requiredCols] using hc
  rcases hcases with rfl | rfl | rfl | rfl | rfl <;>
    simp [parseViaRow, getCell_of_not_mem hmem, bind_const_none]

/-- A failing row anywhere makes the whole load raise. -/
theorem restoreCSVRows_none {header : List String} :
    ∀ {rows : List (List String)},
      (∃ row ∈ rows, parseViaRow header row = none) →
      ∀ d, restoreCSVRows header rows d = none := by
  intro rows
  induction rows with
  | nil =>
    intro h
    simp at h
  | cons r rest ih =>
    intro h d
    obtain ⟨row, hmem, hfail⟩ := h
    rcases List.mem_cons.mp hmem with heq | hmem2
    · subst heq
      simp [restoreCSVRows, hfail]
    · cases hp : parseViaRow header r with
      | none => simp [restoreCSVRows, hp]
      | some p =>
        simp only [restoreCSVRows, hp]
        exact ih ⟨row, hmem2, hfail⟩ _

/-- A successful load is the fold of Python dict assignment over the parsed
rows, in file order. -/
theorem restoreCSVRows_some {header : List String} :
    ∀ {rows : List (List String)} {d d' : Dict},
      restoreCSVRows header rows d = some d' →
      d' = (rows.filterMap (parseViaRow header)).foldl
        (fun acc p => dictInsert acc (intStr p.1) p.2) d := by
  intro rows
  induction rows with
  | nil =>
    intro d d' h
    simp only [restoreCSVRows, Option.some.injEq] at h
    simp [h.symm]
  | cons r rest ih =>
    intro d d' h
    cases hp : parseViaRow header r with
    | none =>
      rw [restoreCSVRows, hp] at h
      exact absurd h (by simp)
    | some p =>
      simp only [restoreCSVRows, hp] at h
      simp only [List.filterMap_cons, hp, List.foldl_cons]
      exact ih h

/-- When every row parses, the load succeeds with that fold. -/
theorem restoreCSVRows_of_parses {header : List String} :
    ∀ {rows : List (List String)} (d : Dict),
      (∀ row ∈ rows, (parseViaRow header row).isSome = true) →
      restoreCSVRows header rows d =
        some ((rows.filterMap (parseViaRow header)).foldl
          (fun acc p => dictInsert acc (intStr p.1) p.2) d) := by
  intro rows
  induction rows with
  | nil => intro d _; rfl
  | cons r rest ih =>
    intro d h
    obtain ⟨p, hp⟩ := Option.isSome_iff_exists.mp (h r (by simp))
    simp only [restoreCSVRows, hp, List.filterMap_cons, List.foldl_cons]
    exact ih _ (fun row hrow => h row (by simp [hrow]))

/-! ## Lemmas: Python dict semantics -/

theorem dictLookup_cons (p : String × ViaRec) (rest : Dict) (k : String) :
    dictLookup (p :: rest) k = if p.1 = k then some p.2 else dictLookup rest k := by
  by_cases h : p.1 = k
  · rw [if_pos h]
    unfold dictLookup
    rw [List.find?_cons_of_pos _ (by simpa using h)]
    rfl
  · rw [if_neg h]
    unfold dictLookup
    rw [List.find?_cons_of_neg _ (by simpa using h)]

theorem dictLookup_insert (d : Dict) (k k' : String) (v : ViaRec) :
    dictLookup (dictInsert d k v) k' = if k' = k then some v else dictLookup d k' := by
  induction d with
  | nil =>
    show dictLookup [(k, v)] k' = _
    rw [dictLookup_cons]
    by_cases h : k' = k
    · rw [if_pos (by rw [h]), if_pos h]
    · rw [if_neg (fun hc => h hc.symm), if_neg h]
  | cons p rest ih =>
    show dictLookup (if p.1 = k then (k, v) :: rest else p :: dictInsert rest k v) k' = _
    by_cases hpk : p.1 = k
    · rw [if_pos hpk, dictLookup_cons, dictLookup_cons]
      by_cases h : k' = k
      · rw [if_pos h.symm, if_pos h]
      · rw [if_neg (fun hc => h hc.symm), if_neg h,
          if_neg (fun hc => h ((hpk.symm.trans hc).symm))]
    · rw [if_neg hpk, dictLookup_cons, dictLookup_cons, ih]
      by_cases hpk' : p.1 = k'
      · have hk : ¬ (k' = k) := fun hc => hpk (hpk'.trans hc)
        rw [if_pos hpk', if_neg hk, if_pos hpk']
      · rw [if_neg hpk', if_neg hpk']

theorem dictLookup_foldl (ps : List (ℤ × ViaRec)) :
    ∀ (d : Dict) (k : String),
      dictLookup (ps.foldl (fun acc p => dictInsert acc (intStr p.1) p.2) d) k =
        ((ps.reverse.find? (fun p => intStr p.1 == k)).map Prod.snd).or
          (dictLookup d k) := by
  induction ps with
  | nil => intro d k; simp
  | cons p rest ih =>
    intro d k
    rw [List.foldl_cons, ih, List.reverse_cons, List.find?_append, dictLookup_insert]
    have hsingle : List.find? (fun q => intStr q.1 == k) [p] =
        if intStr p.1 = k then some p else none := by
      by_cases h : intStr p.1 = k
      · rw [if_pos h]
        exact List.find?_cons_of_pos _ (by simpa using h)
      · rw [if_neg h]
        rw [List.find?_cons_of_neg _ (by simpa using h)]
        rfl
    rw [hsingle]
    by_cases hk : intStr p.1 = k
    · rw [if_pos hk, if_pos hk.symm]
      cases hfind : List.find? (fun q => intStr q.1 == k) rest.reverse <;>
        simp [hfind]
    · rw [if_neg hk, if_neg (fun hc => hk hc.symm)]
      cases hfind : List.find? (fun q => intStr q.1 == k) rest.reverse <;>
        simp [hfind]

/-! ## Lemmas: the grid placement loop -/

/-- Invariant of the placement loop: the state on entering iteration `i` is
either the initial one or the post-increment state of iteration `i - 1`. -/
def LoopInv (yStep : ℚ) (numCols i m : ℕ) (yMod : ℚ) : Prop :=
  (i = 0 ∧ m = 0 ∧ yMod = 0) ∨
    (∃ i', i = i' + 1 ∧ m = i' % numCols + 1 ∧
      yMod = yStep * ((i' / numCols : ℕ) : ℚ))

/-- After the top-of-iteration wrap check, the column counter is `i % numCols`
and the row offset is `yStep·(i / numCols)`. -/
theorem placeLoop_state (yStep : ℚ) (numCols : ℕ)
    {i m : ℕ} {yMod : ℚ} (hinv : LoopInv yStep numCols i m yMod) :
    (if 0 < i ∧ i % numCols = 0 then ((0 : ℕ), yMod + yStep) else (m, yMod)) =
      ((i % numCols : ℕ), yStep * ((i / numCols : ℕ) : ℚ)) := by
  rcases hinv with ⟨hi, hm, hy⟩ | ⟨i', hi, hm, hy⟩
  · subst hi; subst hm; subst hy
    rw [if_neg (by simp)]
    simp
  · subst hi; subst hm; subst hy
    by_cases hz : (i' + 1) % numCols = 0
    · rw [if_pos ⟨Nat.succ_pos i', hz⟩]
      refine Prod.ext ?_ ?_
      · simp [hz]
      · have hdvd : numCols ∣ i' + 1 := Nat.dvd_of_mod_eq_zero hz
        have hdiv : (i' + 1) / numCols = i' / numCols + 1 := by
          rw [Nat.succ_div, if_pos hdvd]
        simp only [hdiv]
        push_cast
        ring
    · rw [if_neg (fun hcontra => hz hcontra.2)]
      have hdvd : ¬ numCols ∣ i' + 1 := fun hd => hz (Nat.dvd_iff_mod_eq_zero.mp hd)
      have hdiv : (i' + 1) / numCols = i' / numCols := by
        rw [Nat.succ_div, if_neg hdvd, add_zero]
      refine Prod.ext ?_ ?_
      · have h1 := Nat.mod_add_div i' numCols
        have h2 := Nat.mod_add_div (i' + 1) numCols
        rw [hdiv] at h2
        simp only []
        omega
      · simp [hdiv]

/-- The placement loop appends, for every record, exactly the four elements
of `recordItems` at the grid position determined by its enumeration index. -/
theorem placeLoop_closed (xStep yStep : ℚ) (numCols : ℕ) :
    ∀ (recs : List (String × ViaRec)) (i m : ℕ) (yMod : ℚ) (board : List PCBItem),
      LoopInv yStep numCols i m yMod →
      placeLoop xStep yStep numCols recs i m yMod board =
        board ++ (enumFrom i recs).flatMap
          (fun p => recordItems xStep yStep numCols p.1 p.2) := by
  intro recs
  induction recs with
  | nil =>
    intro i m yMod board _
    simp [placeLoop, enumFrom]
  | cons kr rest ih =>
    intro i m yMod board hinv
    obtain ⟨k, r⟩ := kr
    simp only [placeLoop, placeLoop_state yStep numCols hinv]
    rw [ih (i + 1) (i % numCols + 1) (yStep * ((i / numCols : ℕ) : ℚ)) _
      (Or.inr ⟨i, rfl, rfl, rfl⟩)]
    simp only [enumFrom, List.flatMap_cons, create_via, if_true, recordItems,
      originMM, add_zero, List.append_assoc, List.cons_append, List.nil_append,
      List.singleton_append]

/-! ## Lemmas: the natural-sort ordering is a total preorder -/

theorem charListLt_asymm : ∀ (a b : List Char),
    charListLt a b = true → charListLt b a = false := by
  intro a
  induction a with
  | nil =>
    intro b h
    cases b with
    | nil => exact absurd h (by simp [charListLt])
    | cons y ys => rfl
  | cons x xs ih =>
    intro b h
    cases b with
    | nil => exact absurd h (by simp [charListLt])
    | cons y ys =>
      simp only [charListLt] at h ⊢
      rcases lt_trichotomy x y with hxy | hxy | hxy
      · rw [if_neg (asymm hxy), if_pos hxy]
      · subst hxy
        rw [if_neg (lt_irrefl x), if_neg (lt_irrefl x)] at h ⊢
        exact ih _ h
      · rw [if_neg (asymm hxy), if_pos hxy] at h
        exact absurd h (by simp)

theorem charListLt_trans : ∀ (a b c : List Char),
    charListLt a b = true → charListLt b c = true → charListLt a c = true := by
  intro a
  induction a with
  | nil =>
    intro b c h1 h2
    cases c with
    | nil =>
      cases b with
      | nil => exact h2
      | cons y ys => exact absurd h2 (by simp [charListLt])
    | cons z zs => rfl
  | cons x xs ih =>
    intro b c h1 h2
    cases b with
    | nil => exact absurd h1 (by simp [charListLt])
    | cons y ys =>
      cases c with
      | nil => exact absurd h2 (by simp [charListLt])
      | cons z zs =>
        simp only [charListLt] at h1 h2 ⊢
        rcases lt_trichotomy x y with hxy | hxy | hxy
        · rcases lt_trichotomy y z with hyz | hyz | hyz
          · rw [if_pos (hxy.trans hyz)]
          · subst hyz
            rw [if_pos hxy]
          · rw [if_neg (asymm hyz), if_pos hyz] at h2
            exact absurd h2 (by simp)
        · subst hxy
          rcases lt_trichotomy x z with hxz | hxz | hxz
          · rw [if_pos hxz]
          · subst hxz
            rw [if_neg (lt_irrefl x), if_neg (lt_irrefl x)] at h1 h2 ⊢
            exact ih _ _ h1 h2
          · rw [if_neg (asymm hxz), if_pos hxz] at h2
            exact absurd h2 (by simp)
        · rw [if_neg (asymm hxy), if_pos hxy] at h1
          exact absurd h1 (by simp)

theorem charListLt_eq : ∀ (a b : List Char),
    charListLt a b = false → charListLt b a = false → a = b := by
  intro a
  induction a with
  | nil =>
    intro b h1 _
    cases b with
    | nil => rfl
    | cons y ys => exact absurd h1 (by simp [charListLt])
  | cons x xs ih =>
    intro b h1 h2
    cases b with
    | nil => exact absurd h2 (by simp [charListLt])
    | cons y ys =>
      simp only [charListLt] at h1 h2
      rcases lt_trichotomy x y with hxy | hxy | hxy
      · rw [if_pos hxy] at h1
        exact absurd h1 (by simp)
      · subst hxy
        rw [if_neg (lt_irrefl x), if_neg (lt_irrefl x)] at h1 h2
        rw [ih _ h1 h2]
      · rw [if_neg (asymm hxy), if_pos hxy] at h2
        exact absurd h2 (by simp)

theorem atomLt_asymm : ∀ (x y : PyAtom), atomLt x y = true → atomLt y x = false := by
  intro x y h
  cases x with
  | num i =>
    cases y with
    | num j =>
      simp only [atomLt, decide_eq_true_eq] at h
      simp only [atomLt, decide_eq_false_iff_not]
      omega
    | str b => rfl
  | str a =>
    cases y with
    | num j => exact absurd h (by simp [atomLt])
    | str b => exact charListLt_asymm _ _ h

theorem atomLt_trans : ∀ (x y z : PyAtom),
    atomLt x y = true → atomLt y z = true → atomLt x z = true := by
  intro x y z h1 h2
  cases x with
  | num i =>
    cases z with
    | str c =>
      cases y <;> rfl
    | num l =>
      cases y with
      | str b => exact absurd h2 (by simp [atomLt])
      | num j =>
        simp only [atomLt, decide_eq_true_eq] at h1 h2 ⊢
        omega
  | str a =>
    cases y with
    | num j => exact absurd h1 (by simp [atomLt])
    | str b =>
      cases z with
      | num l => exact absurd h2 (by simp [atomLt])
      | str c => exact charListLt_trans _ _ _ h1 h2

theorem atomLt_eq : ∀ (x y : PyAtom),
    atomLt x y = false → atomLt y x = false → x = y := by
  intro x y h1 h2
  cases x with
  | num i =>
    cases y with
    | num j =>
      simp only [atomLt, decide_eq_false_iff_not, not_lt] at h1 h2
      rw [le_antisymm h2 h1]
    | str b => exact absurd h1 (by simp [atomLt])
  | str a =>
    cases y with
    | num j => exact absurd h2 (by simp [atomLt])
    | str b => rw [charListLt_eq _ _ h1 h2]

theorem listLe_total : ∀ (a b : List PyAtom), listLe a b = true ∨ listLe b a = true
  | [], _ => Or.inl rfl
  | _ :: _, [] => Or.inr rfl
  | x :: xs, y :: ys => by
    by_cases hxy : atomLt x y = true
    · left
      simp [listLe, hxy]
    · by_cases hyx : atomLt y x = true
      · right
        simp [listLe, hyx]
      · have hx := Bool.not_eq_true _ ▸ hxy
        rcases listLe_total xs ys with h | h
        · left
          simp only [listLe]
          rw [if_neg (by simpa using hxy), if_neg (by simpa using hyx)]
          exact h
        · right
          simp only [listLe]
          rw [if_neg (by simpa using hyx), if_neg (by simpa using hxy)]
          exact h

theorem listLe_trans : ∀ {a b c : List PyAtom},
    listLe a b = true → listLe b c = true → listLe a c = true
  | [], _, _, _, _ => rfl
  | _ :: _, [], _, h1, _ => by simp [listLe] at h1
  | _ :: _, _ :: _, [], _, h2 => by simp [listLe] at h2
  | x :: xs, y :: ys, z :: zs, h1, h2 => by
    simp only [listLe] at h1 h2 ⊢
    by_cases hxy : atomLt x y = true
    · by_cases hyz : atomLt y z = true
      · rw [if_pos (atomLt_trans _ _ _ hxy hyz)]
      · by_cases hzy : atomLt z y = true
        · rw [if_neg hyz, if_pos hzy] at h2
          exact absurd h2 (by simp)
        · have : y = z := atomLt_eq _ _ (by simpa using hyz) (by simpa using hzy)
          subst this
          rw [if_pos hxy]
    · by_cases hyx : atomLt y x = true
      · rw [if_neg hxy, if_pos hyx] at h1
        exact absurd h1 (by simp)
      · have hxyeq : x = y := atomLt_eq _ _ (by simpa using hxy) (by simpa using hyx)
        subst hxyeq
        rw [if_neg hxy, if_neg hyx] at h1
        by_cases hyz : atomLt x z = true
        · rw [if_pos hyz]
        · by_cases hzy : atomLt z x = true
          · rw [if_neg hyz, if_pos hzy] at h2
            exact absurd h2 (by simp)
          · rw [if_neg hyz, if_neg hzy] at h2 ⊢
            exact listLe_trans h1 h2


instance : IsTrans String natRel :=
  ⟨fun _ _ _ h1 h2 => listLe_trans h1 h2⟩

instance : IsTotal String natRel :=
  ⟨fun a b => listLe_total (alphanumKey a) (alphanumKey b)⟩

instance : IsTrans (String × ViaRec) keyIntLe :=
  ⟨fun _ _ _ h1 h2 => le_trans h1 h2⟩

instance : IsTotal (String × ViaRec) keyIntLe :=
  ⟨fun p q => le_total (pyIntD p.1) (pyIntD q.1)⟩

/-- `sortPairs` permutes the table. -/
theorem sortPairs_perm (d : Dict) : (sortPairs d).Perm d :=
  List.perm_insertionSort keyIntLe d

/-- `sortPairs` sorts by ascending numeric index. -/
theorem sortPairs_sorted (d : Dict) : (sortPairs d).Sorted keyIntLe :=
  List.sorted_insertionSort keyIntLe d

/-! ## Lemmas: distributeX -/

theorem fromMils_toMils (q : ℚ) : fromMils (toMils q) = q := by
  unfold fromMils toMils
  field_simp

theorem selBefore_cons (fp : FP) (rest : List FP) (j : ℕ) :
    selBefore (fp :: rest) (j + 1) =
      (if fp.selected then 1 else 0) + selBefore rest j := by
  unfold selBefore
  rw [List.take_succ_cons, List.filter_cons]
  by_cases h : fp.selected <;> simp [h, Nat.add_comm]

theorem dXAux_cons_sel (xStep : ℚ) (fp : FP) (rest : List FP) (m : ℕ)
    (h : fp.selected = true) :
    dXAux xStep (fp :: rest) m =
      { fp with x := fromMils (toMils fp.x + xStep * (m : ℚ)),
                y := fromMils (toMils fp.y) } :: dXAux xStep rest (m + 1) := by
  simp [dXAux, h]

theorem dXAux_cons_unsel (xStep : ℚ) (fp : FP) (rest : List FP) (m : ℕ)
    (h : fp.selected = false) :
    dXAux xStep (fp :: rest) m = fp :: dXAux xStep rest m := by
  simp [dXAux, h]

theorem dXAux_get? (xStep : ℚ) :
    ∀ (board : List FP) (m j : ℕ),
      (dXAux xStep board m).get? j =
        (board.get? j).map (fun fp =>
          if fp.selected then
            { fp with x := fp.x + xStep * ((m + selBefore board j : ℕ) : ℚ) * 25400 }
          else fp) := by
  intro board
  induction board with
  | nil => intro m j; simp [dXAux]
  | cons fp rest ih =>
    intro m j
    by_cases hsel : fp.selected = true
    · rw [dXAux_cons_sel xStep fp rest m hsel]
      cases j with
      | zero =>
        have hx : fromMils (toMils fp.x + xStep * (m : ℚ)) =
            fp.x + xStep * (m : ℚ) * 25400 := by
          unfold fromMils toMils
          field_simp
        simp [hx, fromMils_toMils, hsel, selBefore]
      | succ j' =>
        rw [List.get?_cons_succ, ih (m + 1) j', List.get?_cons_succ,
          selBefore_cons]
        cases hr : rest.get? j' with
        | none => rfl
        | some fq =>
          simp only [Option.map_some, Option.map_some', Option.some.injEq]
          by_cases hq : fq.selected = true
          · simp only [hq, if_true, hsel]
            congr 2
            push_cast
            ring
          · simp [hq]
    · have hself : fp.selected = false := by
        simpa using hsel
      rw [dXAux_cons_unsel xStep fp rest m hself]
      cases j with
      | zero =>
        simp [hself, selBefore]
      | succ j' =>
        rw [List.get?_cons_succ, ih m j', List.get?_cons_succ, selBefore_cons]
        simp [hself]

/-! ## Lemmas: JSON → CSV → reparse round trip -/

theorem intStr_natCast (n : ℕ) : intStr ((n : ℤ)) = natStr n := by
  unfold intStr natStr
  rw [if_neg (by omega)]
  simp

theorem pyIntD_natStr (n : ℕ) : pyIntD (natStr n) = (n : ℤ) := by
  unfold pyIntD
  rw [parsePyInt_natStr]
  rfl

/-- Inserting a fresh key appends. -/
theorem dictInsert_fresh : ∀ (d : Dict) (k : String) (v : ViaRec),
    k ∉ d.map Prod.fst → dictInsert d k v = d ++ [(k, v)] := by
  intro d
  induction d with
  | nil => intro k v _; rfl
  | cons p rest ih =>
    intro k v h
    simp only [List.map_cons, List.mem_cons] at h
    push_neg at h
    unfold dictInsert
    rw [if_neg (fun hc => h.1 hc.symm), List.cons_append, ih k v h.2]

/-- Folding dict assignment over pairwise-fresh keys appends them in order. -/
theorem foldl_insert_eq_append : ∀ (ps : List (ℤ × ViaRec)) (d : Dict),
    ((d ++ ps.map (fun p => (intStr p.1, p.2))).map Prod.fst).Nodup →
    ps.foldl (fun acc p => dictInsert acc (intStr p.1) p.2) d =
      d ++ ps.map (fun p => (intStr p.1, p.2)) := by
  intro ps
  induction ps with
  | nil => intro d _; simp
  | cons p rest ih =>
    intro d hnodup
    have hfresh : intStr p.1 ∉ d.map Prod.fst := by
      intro hmem
      rw [List.map_append, List.nodup_append] at hnodup
      exact hnodup.2.2 hmem (by simp)
    rw [List.foldl_cons, dictInsert_fresh d _ _ hfresh, ih]
    · simp
    · rw [show (d ++ [(intStr p.1, p.2)]) ++ rest.map (fun p => (intStr p.1, p.2)) =
          d ++ (p :: rest).map (fun p => (intStr p.1, p.2)) by simp]
      exact hnodup

/-- Looking a key up in a permuted dict with unique keys gives the same
result. -/
theorem dictLookup_perm {d d' : Dict} (h : d.Perm d')
    (hnodup : (d.map Prod.fst).Nodup) : ∀ k, dictLookup d k = dictLookup d' k := by
  induction h with
  | nil => intro k; rfl
  | cons p hperm ih =>
    intro k
    rw [dictLookup_cons, dictLookup_cons]
    by_cases hk : p.1 = k
    · rw [if_pos hk, if_pos hk]
    · rw [if_neg hk, if_neg hk]
      exact ih (by simpa using (List.nodup_cons.mp (by simpa using hnodup)).2) k
  | swap x y l =>
    intro k
    rw [dictLookup_cons, dictLookup_cons, dictLookup_cons, dictLookup_cons]
    have hne : y.1 ≠ x.1 := by
      simp only [List.map_cons, List.nodup_cons, List.mem_cons] at hnodup
      push_neg at hnodup
      exact hnodup.1.1
    by_cases hy : y.1 = k
    · have hx : ¬ (x.1 = k) := fun hc => hne (hy.trans hc.symm)
      rw [if_pos hy, if_neg hx, if_pos hy]
    · by_cases hx : x.1 = k
      · rw [if_neg hy, if_pos hx, if_pos hx]
      · rw [if_neg hy, if_neg hx, if_neg hx, if_neg hy]
  | trans h1 h2 ih1 ih2 =>
    intro k
    rw [ih1 hnodup k, ih2 ((h1.map Prod.fst).nodup_iff.mp hnodup) k]

/-- Parsing one row of the converted CSV recovers the record, provided the
values have finite decimal expansions. -/
theorem parseViaRow_convert (n : ℕ) (v : ViaRec)
    (hX : IsDec v.X) (hY : IsDec v.Y) (hID : IsDec v.ID) (hOD : IsDec v.OD) :
    parseViaRow [colIndex, colX, colY, colID, colOD]
      [natStr n, showDec v.X, showDec v.Y, showDec v.ID, showDec v.OD] =
      some ((n : ℤ), v) := by
  have h1 : getCell [colIndex, colX, colY, colID, colOD]
      [natStr n, showDec v.X, showDec v.Y, showDec v.ID, showDec v.OD] colIndex =
      some (natStr n) := rfl
  have h2 : getCell [colIndex, colX, colY, colID, colOD]
      [natStr n, showDec v.X, showDec v.Y, showDec v.ID, showDec v.OD] colX =
      some (showDec v.X) := rfl
  have h3 : getCell [colIndex, colX, colY, colID, colOD]
      [natStr n, showDec v.X, showDec v.Y, showDec v.ID, showDec v.OD] colY =
      some (showDec v.Y) := rfl
  have h4 : getCell [colIndex, colX, colY, colID, colOD]
      [natStr n, showDec v.X, showDec v.Y, showDec v.ID, showDec v.OD] colID =
      some (showDec v.ID) := rfl
  have h5 : getCell [colIndex, colX, colY, colID, colOD]
      [natStr n, showDec v.X, showDec v.Y, showDec v.ID, showDec v.OD] colOD =
      some (showDec v.OD) := rfl
  simp only [parseViaRow, h1, h2, h3, h4, h5, parsePyInt_natStr,
    parsePyFloat_showDec hX, parsePyFloat_showDec hY, parsePyFloat_showDec hID,
    parsePyFloat_showDec hOD, Option.bind_some, Option.some_bind, Option.map_some,
    Option.map_some']


/-! ## Projection helpers -/

theorem viaPositions_append (a b : List PCBItem) :
    viaPositions (a ++ b) = viaPositions a ++ viaPositions b :=
  List.filterMap_append a b _

theorem viaPositions_recordItems (xStep yStep : ℚ) (numCols : ℕ) :
    ∀ L : List (ℕ × (String × ViaRec)),
      viaPositions (L.flatMap (fun p => recordItems xStep yStep numCols p.1 p.2)) =
        L.map (fun p => (p.2.2.X + xStep * ((p.1 % numCols : ℕ) : ℚ),
                         p.2.2.Y + yStep * ((p.1 / numCols : ℕ) : ℚ))) := by
  intro L
  induction L with
  | nil => rfl
  | cons p rest ih =>
    rw [List.flatMap_cons, viaPositions_append, ih]
    rfl

/-! ## The claims -/

/-- **C8.** `natural_sort` orders labels by the alphanumeric key: split into
non-digit/digit runs (`splitRuns` = `re.split('([0-9]+)', ·)`), map digit
runs to their integer value and other runs to their lowercased text
(`convert`), and compare the key lists lexicographically (`natRel`); it
returns `["A1","A2","A10","B1"]` unchanged, placing `"A2"` before `"A10"`,
and in general produces a `natRel`-sorted permutation of its input. -/
theorem c8_natural_sort :
    natural_sort ["A1", "A2", "A10", "B1"] = ["A1", "A2", "A10", "B1"] ∧
    (∀ l : List String, (natural_sort l).Perm l ∧ (natural_sort l).Sorted natRel) :=
  ⟨by decide, fun l =>
    ⟨List.perm_insertionSort natRel l, List.sorted_insertionSort natRel l⟩⟩

/-- **C2 (counterexample).** `funnelFromJson` does not iterate in ascending
numeric key order: the two tables below hold the same key/value pairs in
different insertion order, yet the placed boards differ (the first label
placed is `"1"` for one and `"2"` for the other). -/
theorem c2_counterexample :
    ([(("0" : String), ViaRec.mk 0 0 1 2), ("1", ViaRec.mk 10 0 1 2)] : Dict).Perm
      [("1", ViaRec.mk 10 0 1 2), ("0", ViaRec.mk 0 0 1 2)] ∧
    funnelFromJson [("0", ViaRec.mk 0 0 1 2), ("1", ViaRec.mk 10 0 1 2)] 1 1 10 [] ≠
      funnelFromJson [("1", ViaRec.mk 10 0 1 2), ("0", ViaRec.mk 0 0 1 2)] 1 1 10 [] := by
  constructor
  · exact List.Perm.swap _ _ _
  · intro h
    have h2 := congrArg (fun l => l.filterMap (fun it =>
      match it with
      | PCBItem.text s _ _ _ _ _ => some s
      | _ => none)) h
    exact absurd h2 (by decide)

/-- **C2 (amended).** `funnelFromJson` iterates the table in insertion
order: for `numCols ≥ 1` it appends, for the record at insertion position
`i`, the grid items of `recordItems` — the same column/row formula as the
CSV path, but with `i` the insertion index, not the rank of the numeric
key. -/
theorem c2_amended (jd : Dict) (xStep yStep : ℚ) (numCols : ℕ)
    (board : List PCBItem) (_hc : 1 ≤ numCols) :
    funnelFromJson jd xStep yStep numCols board =
      board ++ (enumFrom 0 jd).flatMap
        (fun p => recordItems xStep yStep numCols p.1 p.2) := by
  unfold funnelFromJson
  exact placeLoop_closed xStep yStep numCols jd 0 0 0 board (Or.inl ⟨rfl, rfl, rfl⟩)

/-- **C2 (amended, witness).** The amended statement at a concrete
insertion-ordered table. -/
theorem c2_amended_witness :
    funnelFromJson [(("1" : String), ViaRec.mk 10 0 1 2), ("0", ViaRec.mk 0 0 1 2)]
        1 1 10 [] =
      [] ++ (enumFrom 0 [(("1" : String), ViaRec.mk 10 0 1 2), ("0", ViaRec.mk 0 0 1 2)]).flatMap
        (fun p => recordItems 1 1 10 p.1 p.2) :=
  c2_amended _ 1 1 10 [] (by norm_num)

/-- **C3 (code evaluation).** `distributeXY` diverges from the claim in
both respects.  Ordering: for board footprints named `A2, A10, A1` (in that
board order) the processing order `xyOrder` is `[0, 2, 1]` — footprint
`A2`, then `A1`, then `A10` — although the natural alphanumeric order of
those names is `A1, A2, A10`: the code sorts the pair list
`zip(natural_sort(names), fpList)` lexicographically, which both mis-pairs
names with footprints and un-does the natural order.  Grid: with
`numCols = 1` and two selected footprints at the origin, the second
footprint is moved by `xStep` mils along X (to `360·25400` IU) instead of
by `yStep` along Y, because the column-wrap check runs only after the
element at index `numCols` has been placed. -/
theorem c3_distributeXY_eval :
    xyOrder ["A2", "A10", "A1"] = [0, 2, 1] ∧
    natural_sort ["A2", "A10", "A1"] = ["A1", "A2", "A10"] ∧
    distributeXY [FP.mk "A" 0 0 true, FP.mk "B" 0 0 true] 360 360 1 =
      [FP.mk "A" 0 0 true, FP.mk "B" 9144000 0 true] := by
  refine ⟨by decide, by decide, ?_⟩
  have hord : xyOrder (([FP.mk "A" 0 0 true, FP.mk "B" 0 0 true]).map FP.ref) =
      [0, 1] := by
    decide
  norm_num [distributeXY, hord, dXYAux, applyUpdates, toMils, fromMils,
    List.lookup, enumFrom, List.map_cons, List.map_nil]
  rfl

/-- **C5 (code evaluation).** `distributeY` does not leave X unchanged and
does not shift Y by `n·yStep` mils: for a single selected footprint at IU
position `(25400, 25400)` (one mil in each axis) and `yStep = 66`, where
the claim predicts no movement (`n = 0`), the code yields
`(25400·25400, 1) = (645160000, 1)`: the X coordinate read in IU is fed to
`wxPointMils` unconverted (scaling it by 25400), and Y is converted to mils
twice before being scaled back (collapsing it by 25400). -/
theorem c5_distributeY_eval :
    distributeY [FP.mk "U1" 25400 25400 true] 66 =
      [FP.mk "U1" 645160000 1 true] := by
  norm_num [distributeY, dYAux, toMils, fromMils]

/-- **C9.** `distributeX` moves the `n`-th selected footprint (`n` =
`selBefore board j`, the number of selected footprints before position `j`
in host iteration order) by exactly `n·xStep` mils along X — that is, by
`n·xStep·25400` IU — and changes nothing else: every footprint's Y
coordinate (selected or not), reference and selection state are unchanged,
and unselected footprints keep their X as well. -/
theorem c9_distributeX (board : List FP) (xStep : ℚ) (j : ℕ) :
    (distributeX board xStep).get? j =
      (board.get? j).map (fun fp =>
        if fp.selected then
          { fp with x := fp.x + xStep * ((selBefore board j : ℕ) : ℚ) * 25400 }
        else fp) := by
  unfold distributeX
  rw [dXAux_get? xStep board 0 j]
  simp

/-! ## Evaluation helpers for concrete inputs -/

theorem parsePyFloat_eval (s : String) (t : Bool × ℕ × ℕ × ℕ)
    (h : parsePyFloatParts s.data = some t) :
    parsePyFloat s = some ((if t.1 then (-1 : ℚ) else 1) *
      ((t.2.1 : ℚ) + (t.2.2.1 : ℚ) / 10 ^ t.2.2.2)) := by
  unfold parsePyFloat parsePyFloatChars
  rw [h]
  rfl

theorem parseViaRow_cells (sIdx sX sY sID sOD : String) (n : ℤ) (x y idv odv : ℚ)
    (hIdx : parsePyInt sIdx = some n) (hX : parsePyFloat sX = some x)
    (hY : parsePyFloat sY = some y) (hID : parsePyFloat sID = some idv)
    (hOD : parsePyFloat sOD = some odv) :
    parseViaRow [colIndex, colX, colY, colID, colOD] [sIdx, sX, sY, sID, sOD] =
      some (n, ViaRec.mk x y idv odv) := by
  have h1 : getCell [colIndex, colX, colY, colID, colOD] [sIdx, sX, sY, sID, sOD]
      colIndex = some sIdx := rfl
  have h2 : getCell [colIndex, colX, colY, colID, colOD] [sIdx, sX, sY, sID, sOD]
      colX = some sX := rfl
  have h3 : getCell [colIndex, colX, colY, colID, colOD] [sIdx, sX, sY, sID, sOD]
      colY = some sY := rfl
  have h4 : getCell [colIndex, colX, colY, colID, colOD] [sIdx, sX, sY, sID, sOD]
      colID = some sID := rfl
  have h5 : getCell [colIndex, colX, colY, colID, colOD] [sIdx, sX, sY, sID, sOD]
      colOD = some sOD := rfl
  simp only [parseViaRow, h1, h2, h3, h4, h5, hIdx, hX, hY, hID, hOD,
    Option.some_bind, Option.map_some, Option.map_some']

/-- **C1.** For a CSV that loads successfully into a non-empty table, and
positive steps with `numCols ≥ 1`, `funnelFromCSV` places the `i`-th record
— `i` the 0-based position after sorting the keys by ascending numeric
value (`sortPairs`, proved sorted and a permutation of the table) — at
`X = record.X + xStep·(i mod numCols)`, `Y = record.Y + yStep·(i div
numCols)`, as read off from the via positions it adds to the board. -/
theorem c1_csv_grid (csv : CSV) (d : Dict) (xStep yStep : ℚ) (numCols : ℕ)
    (board : List PCBItem)
    (hload : restoreCSV csv = some d) (_hne : d ≠ [])
    (_hx : 0 < xStep) (_hy : 0 < yStep) (_hc : 1 ≤ numCols) :
    viaPositions (funnelFromCSV csv xStep yStep numCols board).1 =
      viaPositions board ++ (enumFrom 0 (sortPairs d)).map
        (fun p => (p.2.2.X + xStep * ((p.1 % numCols : ℕ) : ℚ),
                   p.2.2.Y + yStep * ((p.1 / numCols : ℕ) : ℚ))) ∧
    (sortPairs d).Sorted keyIntLe ∧ (sortPairs d).Perm d := by
  refine ⟨?_, sortPairs_sorted d, sortPairs_perm d⟩
  have hfun : funnelFromCSV csv xStep yStep numCols board =
      (placeLoop xStep yStep numCols (sortPairs d) 0 0 0 board, false) := by
    unfold funnelFromCSV
    rw [hload]
  rw [hfun]
  rw [show (placeLoop xStep yStep numCols (sortPairs d) 0 0 0 board, false).1 =
      placeLoop xStep yStep numCols (sortPairs d) 0 0 0 board from rfl]
  rw [placeLoop_closed xStep yStep numCols (sortPairs d) 0 0 0 board
    (Or.inl ⟨rfl, rfl, rfl⟩), viaPositions_append, viaPositions_recordItems]

/-- **C1 (witness).** The spec's example: two records at the origin with
`ID = 1.0`, `OD = 2.0`, `xStep = 1.88` mm (= 47/25), `yStep = 1.63` mm,
10 columns: element 0 lands at `(0, 0)` and element 1 at `(1.88, 0)`, in
one row. -/
theorem c1_witness :
    restoreCSV (CSV.mk [colIndex, colX, colY, colID, colOD]
        [[("0" : String), "0", "0", "1.0", "2.0"], ["1", "0", "0", "1.0", "2.0"]]) =
      some [(("0" : String), ViaRec.mk 0 0 1 2), ("1", ViaRec.mk 0 0 1 2)] ∧
    viaPositions (funnelFromCSV (CSV.mk [colIndex, colX, colY, colID, colOD]
        [[("0" : String), "0", "0", "1.0", "2.0"], ["1", "0", "0", "1.0", "2.0"]])
        (47 / 25) (163 / 100) 10 []).1 =
      [((0 : ℚ), (0 : ℚ)), (47 / 25, 0)] := by
  have hpf0 : parsePyFloat ("0") = some 0 := by
    rw [parsePyFloat_eval ("0") (false, 0, 0, 0) (by decide)]
    norm_num
  have hpf1 : parsePyFloat ("1.0") = some 1 := by
    rw [parsePyFloat_eval ("1.0") (false, 1, 0, 1) (by decide)]
    norm_num
  have hpf2 : parsePyFloat ("2.0") = some 2 := by
    rw [parsePyFloat_eval ("2.0") (false, 2, 0, 1) (by decide)]
    norm_num
  have hrow0 : parseViaRow [colIndex, colX, colY, colID, colOD]
      [("0"), ("0"), ("0"), ("1.0"), ("2.0")] = some (0, ViaRec.mk 0 0 1 2) :=
    parseViaRow_cells _ _ _ _ _ 0 0 0 1 2 rfl hpf0 hpf0 hpf1 hpf2
  have hrow1 : parseViaRow [colIndex, colX, colY, colID, colOD]
      [("1"), ("0"), ("0"), ("1.0"), ("2.0")] = some (1, ViaRec.mk 0 0 1 2) :=
    parseViaRow_cells _ _ _ _ _ 1 0 0 1 2 rfl hpf0 hpf0 hpf1 hpf2
  have hload : restoreCSV (CSV.mk [colIndex, colX, colY, colID, colOD]
      [[("0" : String), "0", "0", "1.0", "2.0"], ["1", "0", "0", "1.0", "2.0"]]) =
      some [(("0" : String), ViaRec.mk 0 0 1 2), ("1", ViaRec.mk 0 0 1 2)] := by
    simp only [restoreCSV, restoreCSVRows, hrow0, hrow1]
    rfl
  refine ⟨hload, ?_⟩
  have h := (c1_csv_grid _ _ (47 / 25) (163 / 100) 10 [] hload (by simp)
    (by norm_num) (by norm_num) (by norm_num)).1
  rw [h]
  have hsort : sortPairs [(("0" : String), ViaRec.mk 0 0 1 2), ("1", ViaRec.mk 0 0 1 2)] =
      [(("0" : String), ViaRec.mk 0 0 1 2), ("1", ViaRec.mk 0 0 1 2)] := rfl
  rw [hsort]
  norm_num [enumFrom, viaPositions]

/-- **C4.** For each record the operation adds exactly four elements, in
`Add` order: a silkscreen text label reading `index+1` (the stored key plus
one) at `(X_abs, Y_abs + OD/2 + 4)` mm; a via at `(X_abs, Y_abs)` with
drill `ID` and width `OD`; and two filled solder-mask circles (back then
front) centred at `(X_abs, Y_abs)` whose circumference point is
`X_abs + OD/2`, i.e. radius `OD/2` and diameter `OD` — this is the whole
board mutation (`recordItems`), and the error flag is clear. -/
theorem c4_record_side_effects (csv : CSV) (d : Dict) (xStep yStep : ℚ)
    (numCols : ℕ) (board : List PCBItem)
    (hload : restoreCSV csv = some d) (_hc : 1 ≤ numCols) :
    funnelFromCSV csv xStep yStep numCols board =
      (board ++ (enumFrom 0 (sortPairs d)).flatMap
        (fun p => recordItems xStep yStep numCols p.1 p.2), false) := by
  have hfun : funnelFromCSV csv xStep yStep numCols board =
      (placeLoop xStep yStep numCols (sortPairs d) 0 0 0 board, false) := by
    unfold funnelFromCSV
    rw [hload]
  rw [hfun, placeLoop_closed xStep yStep numCols (sortPairs d) 0 0 0 board
    (Or.inl ⟨rfl, rfl, rfl⟩)]

/-- **C4 (witness).** The side-effect characterization at a one-record
table: the document receives the label "1", the via (drill 1, width 2) and
the two mask circles of radius 1 at the origin. -/
theorem c4_witness :
    funnelFromCSV (CSV.mk [colIndex, colX, colY, colID, colOD]
        [[("0" : String), "0", "0", "1.0", "2.0"]]) 1 1 10 [] =
      ([] ++ (enumFrom 0 (sortPairs [(("0" : String), ViaRec.mk 0 0 1 2)])).flatMap
        (fun p => recordItems 1 1 10 p.1 p.2), false) := by
  have hpf0 : parsePyFloat ("0") = some 0 := by
    rw [parsePyFloat_eval ("0") (false, 0, 0, 0) (by decide)]
    norm_num
  have hpf1 : parsePyFloat ("1.0") = some 1 := by
    rw [parsePyFloat_eval ("1.0") (false, 1, 0, 1) (by decide)]
    norm_num
  have hpf2 : parsePyFloat ("2.0") = some 2 := by
    rw [parsePyFloat_eval ("2.0") (false, 2, 0, 1) (by decide)]
    norm_num
  have hrow0 : parseViaRow [colIndex, colX, colY, colID, colOD]
      [("0"), ("0"), ("0"), ("1.0"), ("2.0")] = some (0, ViaRec.mk 0 0 1 2) :=
    parseViaRow_cells _ _ _ _ _ 0 0 0 1 2 rfl hpf0 hpf0 hpf1 hpf2
  have hload : restoreCSV (CSV.mk [colIndex, colX, colY, colID, colOD]
      [[("0" : String), "0", "0", "1.0", "2.0"]]) =
      some [(("0" : String), ViaRec.mk 0 0 1 2)] := by
    simp only [restoreCSV, restoreCSVRows, hrow0]
    rfl
  exact c4_record_side_effects _ _ 1 1 10 [] hload (by norm_num)

/-- **C7 (counterexample).** A CSV whose header lacks the required
`index` column but which has no data rows loads successfully (as the empty
table) instead of raising: the loader's row loop never executes. -/
theorem c7_counterexample :
    colIndex ∉ ([colX, colY, colID, colOD] : List String) ∧
    restoreCSV (CSV.mk [colX, colY, colID, colOD] []) = some [] :=
  ⟨by decide, rfl⟩

/-- **C7 (amended).** For a CSV with at least one data row, a missing
required column — or any row whose `index`/`X`/`Y`/`ID`/`OD` cell is absent
or fails numeric parsing — makes the load raise, and since `funnelFromCSV`
loads the whole file before its first board mutation, the operation aborts
with the board exactly as it was. -/
theorem c7_amended (csv : CSV) (xStep yStep : ℚ) (numCols : ℕ)
    (board : List PCBItem) (hrows : csv.rows ≠ [])
    (hbad : (∃ c ∈ requiredCols, c ∉ csv.header) ∨
      (∃ row ∈ csv.rows, parseViaRow csv.header row = none)) :
    restoreCSV csv = none ∧
    funnelFromCSV csv xStep yStep numCols board = (board, true) := by
  have hfail : ∃ row ∈ csv.rows, parseViaRow csv.header row = none := by
    rcases hbad with hmiss | h
    · obtain ⟨r0, rest, hr⟩ := List.exists_cons_of_ne_nil hrows
      exact ⟨r0, by rw [hr]; simp, parseViaRow_none_of_missing hmiss⟩
    · exact h
  have hnone : restoreCSV csv = none := restoreCSVRows_none hfail []
  refine ⟨hnone, ?_⟩
  unfold funnelFromCSV
  rw [hnone]

/-- **C7 (amended, witness).** A one-row CSV whose `X` cell reads `abc`
aborts the load and leaves the board unchanged. -/
theorem c7_witness :
    restoreCSV (CSV.mk [colIndex, colX, colY, colID, colOD]
      [[("0" : String), "abc", "0", "1", "2"]]) = none ∧
    funnelFromCSV (CSV.mk [colIndex, colX, colY, colID, colOD]
      [[("0" : String), "abc", "0", "1", "2"]]) 1 1 10
      [PCBItem.via 5 5 1 2] = ([PCBItem.via 5 5 1 2], true) := by
  have habc : parsePyFloat ("abc") = none := by
    unfold parsePyFloat parsePyFloatChars
    rw [show parsePyFloatParts (("abc" : String).data) = none from by decide]
    rfl
  have hrow : parseViaRow [colIndex, colX, colY, colID, colOD]
      [("0"), ("abc"), ("0"), ("1"), ("2")] = none := by
    have h1 : getCell [colIndex, colX, colY, colID, colOD]
        [("0"), ("abc"), ("0"), ("1"), ("2")] colIndex = some ("0") := rfl
    have h2 : getCell [colIndex, colX, colY, colID, colOD]
        [("0"), ("abc"), ("0"), ("1"), ("2")] colX = some ("abc") := rfl
    have hi : parsePyInt ("0") = some 0 := rfl
    simp only [parseViaRow, h1, h2, hi, habc, Option.some_bind, Option.none_bind,
      bind_const_none]
  exact c7_amended _ 1 1 10 _ (by simp)
    (Or.inr ⟨[("0"), ("abc"), ("0"), ("1"), ("2")], by simp, hrow⟩)

/-- **C10.** The loader keys every record by `str(int(index))` — the
canonical decimal string of the row's numeric index — and when several rows
share the same numeric index the record seen last wins: looking up any key
in the loaded table returns the value of the *last* parsed row whose
normalized key matches (and nothing is ever stored under a non-canonical
spelling such as `"007"`). -/
theorem c10_lastwins (csv : CSV) (d : Dict)
    (h : restoreCSV csv = some d) (k : String) :
    dictLookup d k =
      ((csv.rows.filterMap (parseViaRow csv.header)).reverse.find?
        (fun p => intStr p.1 == k)).map Prod.snd := by
  have h' : restoreCSVRows csv.header csv.rows [] = some d := h
  have hd := restoreCSVRows_some h'
  rw [hd, dictLookup_foldl]
  rw [show dictLookup ([] : Dict) k = none from rfl, Option.or_none]

/-- **C10 (witness).** Rows with indices `007` and `7`: both are stored
under the key `"7"`, the second row's values overwrite the first's, and
nothing is stored under `"007"`. -/
theorem c10_witness :
    restoreCSV (CSV.mk [colIndex, colX, colY, colID, colOD]
      [[("007" : String), "1", "0", "1", "2"], ["7", "2", "0", "1", "2"]]) =
      some [(("7" : String), ViaRec.mk 2 0 1 2)] ∧
    dictLookup [(("7" : String), ViaRec.mk 2 0 1 2)] ("7") =
      some (ViaRec.mk 2 0 1 2) ∧
    dictLookup [(("7" : String), ViaRec.mk 2 0 1 2)] ("007") = none := by
  have hpf0 : parsePyFloat ("0") = some 0 := by
    rw [parsePyFloat_eval ("0") (false, 0, 0, 0) (by decide)]
    norm_num
  have hpf1 : parsePyFloat ("1") = some 1 := by
    rw [parsePyFloat_eval ("1") (false, 1, 0, 0) (by decide)]
    norm_num
  have hpf2 : parsePyFloat ("2") = some 2 := by
    rw [parsePyFloat_eval ("2") (false, 2, 0, 0) (by decide)]
    norm_num
  have hrow0 : parseViaRow [colIndex, colX, colY, colID, colOD]
      [("007"), ("1"), ("0"), ("1"), ("2")] = some (7, ViaRec.mk 1 0 1 2) :=
    parseViaRow_cells _ _ _ _ _ 7 1 0 1 2 rfl hpf1 hpf0 hpf1 hpf2
  have hrow1 : parseViaRow [colIndex, colX, colY, colID, colOD]
      [("7"), ("2"), ("0"), ("1"), ("2")] = some (7, ViaRec.mk 2 0 1 2) :=
    parseViaRow_cells _ _ _ _ _ 7 2 0 1 2 rfl hpf2 hpf0 hpf1 hpf2
  have hload : restoreCSV (CSV.mk [colIndex, colX, colY, colID, colOD]
      [[("007" : String), "1", "0", "1", "2"], ["7", "2", "0", "1", "2"]]) =
      some [(("7" : String), ViaRec.mk 2 0 1 2)] := by
    simp only [restoreCSV, restoreCSVRows, hrow0, hrow1]
    rfl
  refine ⟨hload, ?_, ?_⟩
  · rw [c10_lastwins _ _ hload ("7")]
    simp only [List.filterMap_cons, hrow0, hrow1, List.filterMap_nil,
      List.reverse_cons, List.reverse_nil, List.nil_append, List.cons_append,
      List.find?_cons_of_pos _ (show (intStr 7 == ("7" : String)) = true from by decide)]
    rfl
  · rw [c10_lastwins _ _ hload ("007")]
    simp only [List.filterMap_cons, hrow0, hrow1, List.filterMap_nil,
      List.reverse_cons, List.reverse_nil, List.nil_append, List.cons_append]
    have hnone : List.find? (fun p => intStr p.1 == ("007" : String))
        [(7, ViaRec.mk 2 0 1 2), (7, ViaRec.mk 1 0 1 2)] = none := by
      rw [List.find?_eq_none]
      intro x hx
      rcases (by simpa using hx : x = (7, ViaRec.mk 2 0 1 2) ∨
        x = (7, ViaRec.mk 1 0 1 2)) with rfl | rfl <;> decide
    rw [hnone]
    rfl

/-- Loading the rows emitted by the converter appends the records in row
order, provided keys are canonical and fresh and values are decimal. -/
theorem restore_convert_rows :
    ∀ (L : List (String × ViaRec)) (d0 : Dict),
      (∀ p ∈ L, (∃ n : ℕ, p.1 = natStr n) ∧
        IsDec p.2.X ∧ IsDec p.2.Y ∧ IsDec p.2.ID ∧ IsDec p.2.OD) →
      ((d0 ++ L).map Prod.fst).Nodup →
      restoreCSVRows [colIndex, colX, colY, colID, colOD]
        (L.map (fun p => [intStr (pyIntD p.1), showDec p.2.X, showDec p.2.Y,
          showDec p.2.ID, showDec p.2.OD])) d0 = some (d0 ++ L) := by
  intro L
  induction L with
  | nil => intro d0 _ _; simp [restoreCSVRows]
  | cons p rest ih =>
    intro d0 hwf hnodup
    obtain ⟨⟨n, hn⟩, hX, hY, hID, hOD⟩ := hwf p (by simp)
    have hkey : intStr (pyIntD p.1) = p.1 := by
      rw [hn, pyIntD_natStr, intStr_natCast]
    have hrow : parseViaRow [colIndex, colX, colY, colID, colOD]
        [intStr (pyIntD p.1), showDec p.2.X, showDec p.2.Y, showDec p.2.ID,
          showDec p.2.OD] = some ((n : ℤ), p.2) := by
      rw [hkey, hn]
      exact parseViaRow_convert n p.2 hX hY hID hOD
    have hfresh : p.1 ∉ d0.map Prod.fst := by
      intro hmem
      rw [List.map_append, List.nodup_append] at hnodup
      exact hnodup.2.2 hmem (by simp)
    rw [List.map_cons]
    simp only [restoreCSVRows, hrow]
    have hins : dictInsert d0 (intStr (n : ℤ)) p.2 = d0 ++ [p] := by
      rw [intStr_natCast, ← hn, dictInsert_fresh d0 p.1 p.2 hfresh]
    rw [hins, ih (d0 ++ [p]) (fun q hq => hwf q (by simp [hq]))
      (by simpa using hnodup)]
    simp

/-- **C6.** For any well-formed JSON via table — canonical decimal keys,
no duplicate keys, and values with finite decimal expansions (every Python
float has one) — converting to CSV and reparsing with the CSV loader
succeeds and yields exactly the numerically sorted table: the same keys (a
permutation of the original) and the same `(X, Y, ID, OD)` value for every
key, here exactly (the model carries floats as rationals, so the claim's
"within floating-point tolerance" becomes equality). -/
theorem c6_roundtrip (jd : Dict)
    (hkeys : ∀ p ∈ jd, ∃ n : ℕ, p.1 = natStr n)
    (hnodup : (jd.map Prod.fst).Nodup)
    (hdec : ∀ p ∈ jd, IsDec p.2.X ∧ IsDec p.2.Y ∧ IsDec p.2.ID ∧ IsDec p.2.OD) :
    ∃ csv, convertJSONtoCSV jd = some csv ∧
      restoreCSV csv = some (sortPairs jd) ∧
      (∀ k, dictLookup (sortPairs jd) k = dictLookup jd k) ∧
      ((sortPairs jd).map Prod.fst).Perm (jd.map Prod.fst) := by
  have hall : jd.all (fun p => (parsePyInt p.1).isSome) = true := by
    rw [List.all_eq_true]
    intro p hp
    obtain ⟨n, hn⟩ := hkeys p hp
    rw [hn, parsePyInt_natStr]
    rfl
  have hperm := sortPairs_perm jd
  have hsortnodup : ((sortPairs jd).map Prod.fst).Nodup :=
    (hperm.map Prod.fst).nodup_iff.mpr hnodup
  refine ⟨CSV.mk [colIndex, colX, colY, colID, colOD]
    ((sortPairs jd).map (fun p => [intStr (pyIntD p.1), showDec p.2.X,
      showDec p.2.Y, showDec p.2.ID, showDec p.2.OD])), ?_, ?_, ?_,
    hperm.map Prod.fst⟩
  · unfold convertJSONtoCSV
    rw [if_pos hall]
  · show restoreCSVRows [colIndex, colX, colY, colID, colOD]
      ((sortPairs jd).map _) [] = some (sortPairs jd)
    have := restore_convert_rows (sortPairs jd) []
      (fun p hp => ⟨hkeys p (hperm.mem_iff.mp hp), hdec p (hperm.mem_iff.mp hp)⟩)
      (by simpa using hsortnodup)
    simpa using this
  · exact dictLookup_perm hperm hsortnodup

/-- **C6 (witness).** The round trip at a two-record table given in
descending key order with integer coordinates. -/
theorem c6_witness :
    ∃ csv, convertJSONtoCSV
        [(("1" : String), ViaRec.mk 3 0 1 2), ("0", ViaRec.mk 0 0 1 2)] = some csv ∧
      restoreCSV csv =
        some (sortPairs [(("1" : String), ViaRec.mk 3 0 1 2), ("0", ViaRec.mk 0 0 1 2)]) ∧
      (∀ k, dictLookup
        (sortPairs [(("1" : String), ViaRec.mk 3 0 1 2), ("0", ViaRec.mk 0 0 1 2)]) k =
        dictLookup [(("1" : String), ViaRec.mk 3 0 1 2), ("0", ViaRec.mk 0 0 1 2)] k) ∧
      ((sortPairs [(("1" : String), ViaRec.mk 3 0 1 2), ("0", ViaRec.mk 0 0 1 2)]).map
        Prod.fst).Perm
        (([(("1" : String), ViaRec.mk 3 0 1 2), ("0", ViaRec.mk 0 0 1 2)] : Dict).map
          Prod.fst) := by
  have hdec0 : IsDec (0 : ℚ) := ⟨0, by norm_num, by norm_num⟩
  have hdec1 : IsDec (1 : ℚ) := ⟨0, by norm_num, by norm_num⟩
  have hdec2 : IsDec (2 : ℚ) := ⟨0, by norm_num, by norm_num⟩
  have hdec3 : IsDec (3 : ℚ) := ⟨0, by norm_num, by norm_num⟩
  apply c6_roundtrip
  · intro p hp
    rcases (by simpa using hp : p = (("1" : String), ViaRec.mk 3 0 1 2) ∨
      p = (("0" : String), ViaRec.mk 0 0 1 2)) with rfl | rfl
    · exact ⟨1, rfl⟩
    · exact ⟨0, rfl⟩
  · decide
  · intro p hp
    rcases (by simpa using hp : p = (("1" : String), ViaRec.mk 3 0 1 2) ∨
      p = (("0" : String), ViaRec.mk 0 0 1 2)) with rfl | rfl
    · exact ⟨hdec3, hdec0, hdec1, hdec2⟩
    · exact ⟨hdec0, hdec0, hdec1, hdec2⟩

end SrigLayout
